import Mathlib

set_option maxRecDepth 8192

/-!
Verification of the UX-technique recommendation engine
(`getFilteredTechniques` in `src/lib/uxTechniques.ts`).

The TypeScript function filters a static catalog of technique records
against a user-supplied requirement record and buckets the survivors by
design stage.  We embed the data model and the function shallowly:

* `Requirement` mirrors the zod `RequirementSchema` fields consumed by the
  filter (`project_type : string?`, `existing_users : boolean | null`,
  and the three optional string-array selections).
* `TechniqueDetail` mirrors the `TechniqueDetail` interface; `user_base`
  is `Option (List String)` because the code guards it with a JS
  truthiness test (`tech.user_base ? … : true`) and catalog entries may
  omit the field, while an empty array is truthy in JS.
* JS truthiness is made explicit: `strTruthy` (a string is falsy iff it
  is empty or absent) and `boolTruthy` (only `true` is truthy).
* The `Record<string, …[]>` accumulator is an association list
  (`StageMap`); property lookup is `recLookup`, in-place assignment of an
  existing key is `recUpdate`.  `recLookup` models the read as a finite
  map over the explicitly assigned keys; since the assigned keys are
  always the five stage names, this is exact for them.
* A JS property read also consults the prototype chain: for a key that
  is no own property but is an `Object.prototype` property name
  (`protoKeys`), `recommendations[key]` is a truthy non-array and the
  subsequent `.find(...)` call throws a TypeError.  `jsRead`,
  `stepTechJS`, `runCatalogJS` and `getFilteredTechniquesJS` refine the
  embedding with this path, using `none` for the thrown-TypeError
  outcome and `some` for normal return.
* The `allTechniques.forEach` loop is `List.foldl stepTech`, and the
  trailing loop that re-adds missing stage keys is `ensureStages`.

The catalog JSON (`uxTechniqueDetails.json`) is data, not code, and is
not part of the source tree; the embedding is therefore parameterised by
the catalog list, and catalog-dependent claims quantify over it.
-/

namespace Profolio

/-- The fields of the zod `RequirementSchema` that the recommendation
engine reads.  All five are optional at the call site. -/
structure Requirement where
  project_type : Option String
  existing_users : Option Bool
  outcome : Option (List String)
  device_type : Option (List String)
  output_type : Option (List String)
  deriving DecidableEq

/-- One catalog entry, mirroring the `TechniqueDetail` interface of
`uxTechniques.ts`.  `user_base` is optional because the code tests its
presence with a truthiness guard before using it. -/
structure TechniqueDetail where
  name : String
  slug : String
  stage : String
  outcomes : List String
  output_types : List String
  device_types : List String
  project_types : List String
  user_base : Option (List String)
  deriving DecidableEq

/-- The `{name, slug}` objects pushed into the per-stage lists. -/
structure Recommendation where
  name : String
  slug : String
  deriving DecidableEq

/-- JS truthiness of an optional string: `undefined`, `null` and `""`
are falsy, every other string is truthy. -/
def strTruthy : Option String → Bool
  | none => false
  | some s => !(s == "")

/-- JS truthiness of an optional boolean: only `true` is truthy. -/
def boolTruthy : Option Bool → Bool
  | none => false
  | some b => b

/-- `doArraysIntersect` from `uxTechniques.ts`: true when the requirement
array is absent or empty, or the technique array is empty, or the two
arrays share an element. -/
def doArraysIntersect (reqArray : Option (List String)) (techArray : List String) : Bool :=
  match reqArray with
  | none => true
  | some ra =>
    if ra.length == 0 then true
    else if techArray.length == 0 then true
    else ra.any (fun item => techArray.contains item)

/-- JS `String.prototype.toLowerCase`, modelled character-wise (the
values compared in this code are ASCII: `"New"`, `"Old"`, `"new"`,
`"old"`). -/
def toLowerCase (s : String) : String :=
  ⟨s.data.map Char.toLower⟩

/-- The `projectTypeMatch` constant of the loop body:
`requirement.project_type ? tech.project_types.some (pType =>
pType.toLowerCase() === requirement.project_type.toLowerCase()) : true`. -/
def projectTypeMatch (requirement : Requirement) (tech : TechniqueDetail) : Bool :=
  if strTruthy requirement.project_type then
    tech.project_types.any
      (fun pType => toLowerCase pType == toLowerCase (requirement.project_type.getD ""))
  else true

/-- `userContext`: `"existing"` when `requirement.existing_users` is
truthy, `"new"` otherwise. -/
def userContext (requirement : Requirement) : String :=
  if boolTruthy requirement.existing_users then "existing" else "new"

/-- `userBaseMatch`: `tech.user_base ? tech.user_base.includes(userContext)
: true`.  An empty present array is truthy in JS and contains nothing. -/
def userBaseMatch (requirement : Requirement) (tech : TechniqueDetail) : Bool :=
  match tech.user_base with
  | some ub => ub.contains (userContext requirement)
  | none => true

/-- `outcomeMatch = doArraysIntersect(requirement.outcome, tech.outcomes)`. -/
def outcomeMatch (requirement : Requirement) (tech : TechniqueDetail) : Bool :=
  doArraysIntersect requirement.outcome tech.outcomes

/-- `deviceTypeMatch = doArraysIntersect(requirement.device_type,
tech.device_types)`. -/
def deviceTypeMatch (requirement : Requirement) (tech : TechniqueDetail) : Bool :=
  doArraysIntersect requirement.device_type tech.device_types

/-- The `earlyStages` array of the loop body. -/
def earlyStages : List String := ["Discover", "Define", "Design"]

/-- `isEarlyStage = earlyStages.includes(tech.stage)`. -/
def isEarlyStage (tech : TechniqueDetail) : Bool :=
  earlyStages.contains tech.stage

/-- `outputTypeMatch = isEarlyStage ||
doArraysIntersect(requirement.output_type, tech.output_types)`. -/
def outputTypeMatch (requirement : Requirement) (tech : TechniqueDetail) : Bool :=
  isEarlyStage tech || doArraysIntersect requirement.output_type tech.output_types

/-- The guard of the push:
`projectTypeMatch && outcomeMatch && deviceTypeMatch && outputTypeMatch
&& userBaseMatch`. -/
def matchesCriteria (requirement : Requirement) (tech : TechniqueDetail) : Bool :=
  projectTypeMatch requirement tech && outcomeMatch requirement tech &&
    deviceTypeMatch requirement tech && outputTypeMatch requirement tech &&
    userBaseMatch requirement tech

/-- The `Record<string, {name, slug}[]>` accumulator, as an association
list in key-insertion order. -/
abbrev StageMap := List (String × List Recommendation)

/-- Property read `recs[key]`: first binding of `key`, if any. -/
def recLookup : StageMap → String → Option (List Recommendation)
  | [], _ => none
  | (k, v) :: rest, key => if k == key then some v else recLookup rest key

/-- Property write `recs[key] = val` for a key that is already present:
replaces the first binding of `key`, leaves everything else alone. -/
def recUpdate : StageMap → String → List Recommendation → StageMap
  | [], _, _ => []
  | (k, v) :: rest, key, val =>
    if k == key then (k, val) :: rest else (k, v) :: recUpdate rest key val

/-- The object literal initialising `recommendations` with the five
stages, each bound to an empty list. -/
def initialRecommendations : StageMap :=
  [("Discover", []), ("Define", []), ("Design", []), ("Develop", []), ("Deliver", [])]

/-- One iteration of the `allTechniques.forEach` body: if all five
criteria hold, and `recommendations[tech.stage]` exists (truthy), and no
entry of that list already carries `tech.name`, push `{name, slug}`. -/
def stepTech (requirement : Requirement) (recs : StageMap) (tech : TechniqueDetail) : StageMap :=
  if matchesCriteria requirement tech then
    match recLookup recs tech.stage with
    | some lst =>
      if lst.any (fun t => t.name == tech.name) then recs
      else recUpdate recs tech.stage (lst ++ [⟨tech.name, tech.slug⟩])
    | none => recs
  else recs

/-- The five stages of the trailing `allStages` loop. -/
def allStages : List String := ["Discover", "Define", "Design", "Develop", "Deliver"]

/-- The trailing loop: `allStages.forEach(stage => { if
(!recommendations[stage]) recommendations[stage] = []; })`.  A missing
key is appended in insertion order. -/
def ensureStages (recs : StageMap) : StageMap :=
  allStages.foldl
    (fun r stage => if (recLookup r stage).isSome then r else r ++ [(stage, [])]) recs

/-- `getFilteredTechniques`, parameterised by the catalog
(`allTechniques` in the source, loaded from static JSON).  The
`if (!requirement) return recommendations` guard is unreachable in the
embedding because `Requirement` is not nullable here. -/
def getFilteredTechniques (catalog : List TechniqueDetail) (requirement : Requirement) : StageMap :=
  ensureStages (catalog.foldl (stepTech requirement) initialRecommendations)

/-- Entry built from a technique, used to state list-level properties. -/
def entryOf (tech : TechniqueDetail) : Recommendation :=
  ⟨tech.name, tech.slug⟩

/-- First-occurrence-wins deduplication by `name`, skipping names in
`seen`.  `stepTech`'s duplicate-name guard makes each per-stage list the
deduplication of the matching catalog entries, which is proved below. -/
def dedupeByName (seen : List String) : List Recommendation → List Recommendation
  | [] => []
  | r :: rs =>
    if r.name ∈ seen then dedupeByName seen rs
    else r :: dedupeByName (r.name :: seen) rs

/-- The filtered catalog entries that target stage `s`, in catalog
order. -/
def matchingEntries (catalog : List TechniqueDetail) (requirement : Requirement)
    (s : String) : List Recommendation :=
  (catalog.filter (fun t => matchesCriteria requirement t && t.stage == s)).map entryOf

/-- A requirement with every selection present but empty and the two
scalar fields unset. -/
def emptyReq : Requirement :=
  ⟨none, none, some [], some [], some []⟩

/-- Sample early-stage technique producing only mobile-app outputs. -/
def techDiscoverMobile : TechniqueDetail :=
  ⟨"Field Study", "field-study", "Discover", [], ["Mobile App"], [], [], none⟩

/-- Sample late-stage technique producing only mobile-app outputs. -/
def techDeliverMobile : TechniqueDetail :=
  ⟨"Usability Benchmark", "usability-benchmark", "Deliver", [], ["Mobile App"], [], [], none⟩

/-- A requirement selecting only the output type Kiosk. -/
def reqKiosk : Requirement :=
  ⟨none, none, some [], some [], some ["Kiosk"]⟩

/-- A requirement selecting only the output type Desktop Software. -/
def reqDesktop : Requirement :=
  ⟨none, none, some [], some [], some ["Desktop Software"]⟩

/-- A requirement whose only selection is the project type new. -/
def reqNew : Requirement :=
  ⟨some "new", none, none, none, none⟩

/-- Sample technique restricted to New projects. -/
def techNew : TechniqueDetail :=
  ⟨"Concept Test", "concept-test", "Define", [], [], [], ["New"], none⟩

/-- Sample technique restricted to existing users only. -/
def techExistingOnly : TechniqueDetail :=
  ⟨"Churn Survey", "churn-survey", "Discover", [], [], [], [], some ["existing"]⟩

/-- Sample technique whose `user_base` field is present but empty. -/
def techEmptyUserBase : TechniqueDetail :=
  ⟨"Ghost Technique", "ghost-technique", "Design", [], [], [], [], some []⟩

/-- Sample catalog entry with a stage outside the five fixed stages. -/
def techUnknownStage : TechniqueDetail :=
  ⟨"Ideation Sprint", "ideation-sprint", "Ideate", [], [], [], [], none⟩

/-- Unrestricted sample technique in Discover. -/
def techInterviews : TechniqueDetail :=
  ⟨"User Interviews", "user-interviews", "Discover", [], [], [], [], none⟩

/-- Two catalog entries sharing a name and a stage but with different
slugs. -/
def catalogDup : List TechniqueDetail :=
  [⟨"Card Sort", "card-sort-a", "Define", [], [], [], [], none⟩,
   ⟨"Card Sort", "card-sort-b", "Define", [], [], [], [], none⟩]

/-- Outcome of the JS property read `recommendations[key]`: an own
property holding an array, a truthy non-array inherited from
`Object.prototype` (a function, or the `__proto__` object), or
`undefined`. -/
inductive JsReadResult where
  | arr : List Recommendation → JsReadResult
  | protoTruthy : JsReadResult
  | undef : JsReadResult
  deriving DecidableEq

/-- The own property names of `Object.prototype`, all of which read as
truthy non-array values on a plain object literal. -/
def protoKeys : List String :=
  ["constructor", "hasOwnProperty", "isPrototypeOf", "propertyIsEnumerable",
   "toLocaleString", "toString", "valueOf", "__proto__",
   "__defineGetter__", "__defineSetter__", "__lookupGetter__", "__lookupSetter__"]

/-- JS property read including the prototype chain: own properties (the
assigned stage keys) win, then `Object.prototype` properties, then
`undefined`. -/
def jsRead (recs : StageMap) (key : String) : JsReadResult :=
  match recLookup recs key with
  | some lst => JsReadResult.arr lst
  | none => if key ∈ protoKeys then JsReadResult.protoTruthy else JsReadResult.undef

/-- One `forEach` iteration under the prototype-chain-faithful read:
when the five criteria pass and the read yields a truthy inherited
non-array, `recommendations[tech.stage].find` is `undefined` and calling
it throws a TypeError, modelled as `none`. -/
def stepTechJS (requirement : Requirement) (recs : StageMap) (tech : TechniqueDetail) :
    Option StageMap :=
  if matchesCriteria requirement tech then
    match jsRead recs tech.stage with
    | JsReadResult.arr lst =>
      if lst.any (fun t => t.name == tech.name) then some recs
      else some (recUpdate recs tech.stage (lst ++ [⟨tech.name, tech.slug⟩]))
    | JsReadResult.protoTruthy => none
    | JsReadResult.undef => some recs
  else some recs

/-- The catalog loop under the prototype-chain-faithful read; a thrown
TypeError aborts the whole call. -/
def runCatalogJS (requirement : Requirement) :
    List TechniqueDetail → StageMap → Option StageMap
  | [], recs => some recs
  | t :: ts, recs =>
    match stepTechJS requirement recs t with
    | some recs2 => runCatalogJS requirement ts recs2
    | none => none

/-- `getFilteredTechniques` under the prototype-chain-faithful read:
`some` is normal return, `none` is the thrown TypeError. -/
def getFilteredTechniquesJS (catalog : List TechniqueDetail) (requirement : Requirement) :
    Option StageMap :=
  match runCatalogJS requirement catalog initialRecommendations with
  | some recs => some (ensureStages recs)
  | none => none

/-- A catalog entry whose stage collides with an `Object.prototype`
property name. -/
def techToString : TechniqueDetail :=
  ⟨"Proto Trap", "proto-trap", "toString", [], [], [], [], none⟩

/-- The result of running the engine on `[techInterviews]` (or on that
catalog with an unknown-stage entry appended) under `emptyReq`. -/
def resultSample : StageMap :=
  [("Discover", [⟨"User Interviews", "user-interviews"⟩]),
   ("Define", []), ("Design", []), ("Develop", []), ("Deliver", [])]

/-- C3: the output-type criterion is bypassed (always true) for
techniques in the three early stages, and for all other stages it equals
the lenient-intersection rule between the requirement's `output_type`
selection and the technique's `output_types`. -/
theorem c3_output_type_gating (requirement : Requirement) (tech : TechniqueDetail) :
    (tech.stage ∈ earlyStages → outputTypeMatch requirement tech = true) ∧
    (tech.stage ∉ earlyStages →
      outputTypeMatch requirement tech =
        doArraysIntersect requirement.output_type tech.output_types) := by
  constructor
  · intro h
    have he : isEarlyStage tech = true := by simpa [isEarlyStage] using h
    simp [outputTypeMatch, he]
  · intro h
    have he : isEarlyStage tech = false := by simpa [isEarlyStage] using h
    simp [outputTypeMatch, he]

/-- Witness for C3: a Discover technique with only mobile-app outputs is
not output-type-gated for a kiosk-only requirement, while the same
output set on a Deliver technique is gated by the lenient-intersection
rule for a desktop-only requirement. -/
theorem c3_output_type_gating_witness :
    outputTypeMatch reqKiosk techDiscoverMobile = true ∧
    outputTypeMatch reqDesktop techDeliverMobile =
      doArraysIntersect reqDesktop.output_type techDeliverMobile.output_types :=
  ⟨(c3_output_type_gating reqKiosk techDiscoverMobile).1 (by decide),
   (c3_output_type_gating reqDesktop techDeliverMobile).2 (by decide)⟩

/-- C6: the outcome and device-type criteria are the lenient-intersection
rule applied to the corresponding selection and technique sets, and the
rule holds exactly when the requirement side is absent or empty, the
technique side is empty, or the two share a tag. -/
theorem c6_lenient_intersection (requirement : Requirement) (tech : TechniqueDetail)
    (ra : Option (List String)) (ta : List String) :
    outcomeMatch requirement tech = doArraysIntersect requirement.outcome tech.outcomes ∧
    deviceTypeMatch requirement tech = doArraysIntersect requirement.device_type tech.device_types ∧
    (doArraysIntersect ra ta = true ↔
      (ra = none ∨ ra = some [] ∨ ta = [] ∨ ∃ x, x ∈ ra.getD [] ∧ x ∈ ta)) := by
  refine ⟨rfl, rfl, ?_⟩
  cases ra with
  | none => simp [doArraysIntersect]
  | some l =>
    by_cases hl : l = []
    · subst hl; simp [doArraysIntersect]
    · by_cases ht : ta = []
      · subst ht
        have hl0 : (l.length == 0) = false := by simp [List.length_eq_zero, hl]
        simp [doArraysIntersect, hl0, hl]
      · have hl0 : (l.length == 0) = false := by simp [List.length_eq_zero, hl]
        have ht0 : (ta.length == 0) = false := by simp [List.length_eq_zero, ht]
        simp [doArraysIntersect, hl0, ht0, hl, ht, List.any_eq_true]

/-- C7: over the requirement domain of the data model (`projectType`
unset or one of new, old), the project-type criterion holds exactly when
the value is unset or the technique's `project_types` has a
case-insensitive match of it. -/
theorem c7_project_type (requirement : Requirement) (tech : TechniqueDetail)
    (hdom : requirement.project_type = none ∨ requirement.project_type = some "new" ∨
      requirement.project_type = some "old") :
    projectTypeMatch requirement tech = true ↔
      (requirement.project_type = none ∨
        ∃ p ∈ tech.project_types,
          toLowerCase p = toLowerCase (requirement.project_type.getD "")) := by
  rcases hdom with h | h | h <;>
    simp [projectTypeMatch, strTruthy, h, List.any_eq_true]

/-- Witness for C7: a technique with `project_types = ["New"]` matches a
requirement whose `project_type` is `"new"`. -/
theorem c7_project_type_witness :
    (reqNew.project_type = none ∨ reqNew.project_type = some "new" ∨
      reqNew.project_type = some "old") ∧
    projectTypeMatch reqNew techNew = true :=
  ⟨Or.inr (Or.inl rfl),
   (c7_project_type reqNew techNew (Or.inr (Or.inl rfl))).mpr
     (Or.inr ⟨"New", by decide, by decide⟩)⟩

/-- C8: the derived user context is `"existing"` exactly when
`existing_users` is set to `true` (else `"new"`, also when unset), and
the user-base criterion holds exactly when the technique carries no
`user_base` field or that field contains the derived context. -/
theorem c8_user_base (requirement : Requirement) (tech : TechniqueDetail) :
    userContext requirement =
      (if requirement.existing_users = some true then "existing" else "new") ∧
    (userBaseMatch requirement tech = true ↔
      (tech.user_base = none ∨ userContext requirement ∈ tech.user_base.getD [])) := by
  constructor
  · cases h : requirement.existing_users with
    | none => simp [userContext, boolTruthy, h]
    | some b => cases b <;> simp [userContext, boolTruthy, h]
  · cases hub : tech.user_base with
    | none => simp [userBaseMatch, hub]
    | some ub => simp [userBaseMatch, hub]

/-- Updating a present key makes its lookup return the new value. -/
theorem recLookup_recUpdate_self (recs : StageMap) (k : String) (v : List Recommendation)
    (h : (recLookup recs k).isSome) : recLookup (recUpdate recs k v) k = some v := by
  induction recs with
  | nil => simp [recLookup] at h
  | cons p rest ih =>
    obtain ⟨a, b⟩ := p
    by_cases hk : (a == k) = true
    · simp [recUpdate, recLookup, hk]
    · simp only [recLookup, recUpdate] at h ⊢
      rw [if_neg hk] at h
      rw [if_neg hk, recLookup, if_neg hk]
      exact ih h

/-- Updating one key leaves every other key's lookup unchanged. -/
theorem recLookup_recUpdate_ne (recs : StageMap) (k q : String)
    (v : List Recommendation) (h : ¬ k = q) :
    recLookup (recUpdate recs k v) q = recLookup recs q := by
  induction recs with
  | nil => simp [recUpdate, recLookup]
  | cons p rest ih =>
    obtain ⟨a, b⟩ := p
    by_cases hk : (a == k) = true
    · have ha : a = k := by simpa using hk
      have haq : (a == q) = false := by
        subst ha; simpa using h
      simp [recUpdate, recLookup, hk, haq]
    · by_cases haq : (a == q) = true
      · simp [recUpdate, recLookup, hk, haq]
      · simp only [recUpdate, recLookup]
        rw [if_neg hk, recLookup, if_neg haq, if_neg haq]
        exact ih

/-- `recUpdate` never changes the key set. -/
theorem recUpdate_keys (recs : StageMap) (k : String) (v : List Recommendation) :
    (recUpdate recs k v).map Prod.fst = recs.map Prod.fst := by
  induction recs with
  | nil => rfl
  | cons p rest ih =>
    obtain ⟨a, b⟩ := p
    by_cases hk : (a == k) = true
    · simp [recUpdate, hk]
    · simp [recUpdate, hk, ih]

/-- One `forEach` iteration never changes the key set. -/
theorem stepTech_keys (requirement : Requirement) (recs : StageMap) (tech : TechniqueDetail) :
    (stepTech requirement recs tech).map Prod.fst = recs.map Prod.fst := by
  unfold stepTech
  by_cases hm : matchesCriteria requirement tech = true
  · rw [if_pos hm]
    cases hlk : recLookup recs tech.stage with
    | none => rfl
    | some lst =>
      by_cases hd : (lst.any (fun t => t.name == tech.name)) = true
      · simp [hd]
      · simp [hd, recUpdate_keys]
  · rw [if_neg hm]

/-- The whole catalog fold never changes the key set. -/
theorem foldl_stepTech_keys (requirement : Requirement) (catalog : List TechniqueDetail) :
    ∀ recs : StageMap,
      (List.foldl (stepTech requirement) recs catalog).map Prod.fst = recs.map Prod.fst := by
  induction catalog with
  | nil => intro recs; rfl
  | cons t ts ih =>
    intro recs
    rw [List.foldl_cons, ih, stepTech_keys]

/-- A key that occurs in the map has a successful lookup. -/
theorem recLookup_isSome_of_mem (recs : StageMap) (k : String)
    (h : k ∈ recs.map Prod.fst) : (recLookup recs k).isSome := by
  induction recs with
  | nil => simp at h
  | cons p rest ih =>
    obtain ⟨a, b⟩ := p
    by_cases hk : (a == k) = true
    · simp [recLookup, hk]
    · have hak : ¬ a = k := by simpa using hk
      simp only [List.map_cons, List.mem_cons] at h
      rcases h with h | h
      · exact absurd h.symm hak
      · simp only [recLookup]
        rw [if_neg hk]
        exact ih h

/-- A key that does not occur in the map looks up to `none`. -/
theorem recLookup_none_of_not_mem (recs : StageMap) (k : String)
    (h : ¬ k ∈ recs.map Prod.fst) : recLookup recs k = none := by
  induction recs with
  | nil => rfl
  | cons p rest ih =>
    obtain ⟨a, b⟩ := p
    simp only [List.map_cons, List.mem_cons, not_or] at h
    have hk : (a == k) = false := by simpa using fun hh : a = k => h.1 hh.symm
    simp only [recLookup]
    rw [if_neg (by simp [hk])]
    exact ih h.2

/-- The trailing stage-restoring loop is the identity when every listed
stage is already a key. -/
theorem ensure_foldl_eq_self (l : List String) (recs : StageMap)
    (h : ∀ s ∈ l, (recLookup recs s).isSome) :
    l.foldl (fun r stage => if (recLookup r stage).isSome then r else r ++ [(stage, [])])
      recs = recs := by
  induction l with
  | nil => rfl
  | cons a as ih =>
    rw [List.foldl_cons, if_pos (h a (List.mem_cons_self a as))]
    exact ih (fun s hs => h s (List.mem_cons_of_mem a hs))

/-- `ensureStages` is the identity when all five stages are keys. -/
theorem ensureStages_eq_self (recs : StageMap)
    (h : ∀ s ∈ allStages, (recLookup recs s).isSome) : ensureStages recs = recs :=
  ensure_foldl_eq_self allStages recs h

/-- A technique whose stage is not a key of the accumulator is skipped. -/
theorem stepTech_of_lookup_none (requirement : Requirement) (recs : StageMap)
    (tech : TechniqueDetail) (h : recLookup recs tech.stage = none) :
    stepTech requirement recs tech = recs := by
  unfold stepTech
  rw [h]
  split <;> rfl

/-- A technique failing the five-criteria guard is skipped. -/
theorem stepTech_not_matches (requirement : Requirement) (recs : StageMap)
    (tech : TechniqueDetail) (h : matchesCriteria requirement tech = false) :
    stepTech requirement recs tech = recs := by
  unfold stepTech
  rw [h]
  rfl

/-- Keys of the fully folded accumulator are the five stages. -/
theorem stage_keys_eq (catalog : List TechniqueDetail) (requirement : Requirement) :
    (getFilteredTechniques catalog requirement).map Prod.fst = allStages := by
  unfold getFilteredTechniques
  have hkeys :
      (List.foldl (stepTech requirement) initialRecommendations catalog).map Prod.fst
        = allStages := by
    rw [foldl_stepTech_keys]
    rfl
  rw [ensureStages_eq_self _ ?_, hkeys]
  intro s hs
  apply recLookup_isSome_of_mem
  rw [hkeys]
  exact hs

/-- Inserting a technique that the fold ignores does not change the
result. -/
theorem getFiltered_insert_skip (requirement : Requirement)
    (c₁ c₂ : List TechniqueDetail) (tech : TechniqueDetail)
    (h : stepTech requirement (List.foldl (stepTech requirement) initialRecommendations c₁)
          tech = List.foldl (stepTech requirement) initialRecommendations c₁) :
    getFilteredTechniques (c₁ ++ tech :: c₂) requirement =
      getFilteredTechniques (c₁ ++ c₂) requirement := by
  unfold getFilteredTechniques
  rw [List.foldl_append, List.foldl_append, List.foldl_cons, h]

/-- A name occurs among the entry names exactly when the push guard's
`find` call would succeed. -/
theorem name_mem_iff_any (lst : List Recommendation) (n : String) :
    n ∈ lst.map (fun r => r.name) ↔ (lst.any (fun r => r.name == n)) = true := by
  rw [List.any_eq_true]
  constructor
  · intro hmem
    rcases List.mem_map.mp hmem with ⟨r, hr, hname⟩
    exact ⟨r, hr, by rw [hname]; exact beq_self_eq_true n⟩
  · rintro ⟨r, hr, hname⟩
    exact List.mem_map.mpr ⟨r, hr, by simpa using hname⟩

/-- `dedupeByName` only depends on the membership predicate of `seen`. -/
theorem dedupeByName_congr (l : List Recommendation) :
    ∀ seen₁ seen₂ : List String, (∀ a, a ∈ seen₁ ↔ a ∈ seen₂) →
      dedupeByName seen₁ l = dedupeByName seen₂ l := by
  induction l with
  | nil => intro _ _ _; rfl
  | cons r rs ih =>
    intro s1 s2 h
    simp only [dedupeByName]
    by_cases hc : r.name ∈ s2
    · rw [if_pos ((h r.name).mpr hc), if_pos hc]
      exact ih s1 s2 h
    · rw [if_neg (fun hh => hc ((h r.name).mp hh)), if_neg hc,
        ih (r.name :: s1) (r.name :: s2) (fun a => by simp [h a])]

/-- Master characterisation of the catalog fold: the list bound to a key
`s` grows by exactly the first-occurrence deduplication of the matching
entries targeting `s`, with names already present counted as seen. -/
theorem foldl_stepTech_lookup (requirement : Requirement) (catalog : List TechniqueDetail) :
    ∀ (recs : StageMap) (s : String) (lst : List Recommendation),
      recLookup recs s = some lst →
      recLookup (List.foldl (stepTech requirement) recs catalog) s =
        some (lst ++ dedupeByName (lst.map (fun r => r.name))
          ((catalog.filter
            (fun t => matchesCriteria requirement t && t.stage == s)).map entryOf)) := by
  induction catalog with
  | nil =>
    intro recs s lst h
    simpa [dedupeByName] using h
  | cons t ts ih =>
    intro recs s lst h
    rw [List.foldl_cons]
    by_cases hm : matchesCriteria requirement t = true
    · by_cases hst : (t.stage == s) = true
      · have hseq : t.stage = s := by simpa using hst
        subst hseq
        by_cases hdup : (lst.any (fun r => r.name == t.name)) = true
        · have hstep : stepTech requirement recs t = recs := by
            simp [stepTech, hm, h, hdup]
          have hfit :
              List.filter (fun x => matchesCriteria requirement x && x.stage == t.stage)
                  (t :: ts) =
                t :: ts.filter (fun x => matchesCriteria requirement x && x.stage == t.stage) := by
            simp [List.filter_cons, hm]
          have hmem : t.name ∈ lst.map (fun r => r.name) :=
            (name_mem_iff_any lst t.name).mpr hdup
          rw [hstep, ih recs t.stage lst h, hfit, List.map_cons]
          simp only [dedupeByName, entryOf]
          rw [if_pos hmem]
        · have hany : (lst.any (fun r => r.name == t.name)) = false := by
            simpa using hdup
          have hstep : stepTech requirement recs t =
              recUpdate recs t.stage (lst ++ [⟨t.name, t.slug⟩]) := by
            simp [stepTech, hm, h, hany]
          have hlk2 :
              recLookup (recUpdate recs t.stage (lst ++ [⟨t.name, t.slug⟩])) t.stage =
                some (lst ++ [⟨t.name, t.slug⟩]) :=
            recLookup_recUpdate_self _ _ _ (by simp [h])
          have hfit :
              List.filter (fun x => matchesCriteria requirement x && x.stage == t.stage)
                  (t :: ts) =
                t :: ts.filter (fun x => matchesCriteria requirement x && x.stage == t.stage) := by
            simp [List.filter_cons, hm]
          have hnmem : ¬ t.name ∈ lst.map (fun r => r.name) := by
            rw [name_mem_iff_any, hany]
            simp
          rw [hstep, ih _ t.stage _ hlk2, hfit, List.map_cons]
          simp only [dedupeByName, entryOf]
          rw [if_neg hnmem]
          congr 1
          rw [← List.append_cons]
          congr 1
          congr 1
          apply dedupeByName_congr
          intro a
          simp [or_comm]
      · have hfit :
            List.filter (fun x => matchesCriteria requirement x && x.stage == s)
                (t :: ts) =
              ts.filter (fun x => matchesCriteria requirement x && x.stage == s) := by
          simp [List.filter_cons, hst]
        cases hlk : recLookup recs t.stage with
        | none =>
          rw [stepTech_of_lookup_none _ _ _ hlk, ih recs s lst h, hfit]
        | some lst2 =>
          by_cases hdup : (lst2.any (fun r => r.name == t.name)) = true
          · have hstep : stepTech requirement recs t = recs := by
              simp [stepTech, hm, hlk, hdup]
            rw [hstep, ih recs s lst h, hfit]
          · have hany : (lst2.any (fun r => r.name == t.name)) = false := by
              simpa using hdup
            have hstep : stepTech requirement recs t =
                recUpdate recs t.stage (lst2 ++ [⟨t.name, t.slug⟩]) := by
              simp [stepTech, hm, hlk, hany]
            have hne : ¬ t.stage = s := by simpa using hst
            have hlk3 :
                recLookup (recUpdate recs t.stage (lst2 ++ [⟨t.name, t.slug⟩])) s =
                  some lst := by
              rw [recLookup_recUpdate_ne _ _ _ _ hne]
              exact h
            rw [hstep, ih _ s lst hlk3, hfit]
    · have hmf : matchesCriteria requirement t = false := by simpa using hm
      have hfit :
          List.filter (fun x => matchesCriteria requirement x && x.stage == s)
              (t :: ts) =
            ts.filter (fun x => matchesCriteria requirement x && x.stage == s) := by
        simp [List.filter_cons, hmf]
      rw [stepTech_not_matches requirement recs t hmf, ih recs s lst h, hfit]

/-- Deduplication returns a subsequence of its input: catalog iteration
order is preserved. -/
theorem dedupeByName_sublist (l : List Recommendation) :
    ∀ seen, (dedupeByName seen l).Sublist l := by
  induction l with
  | nil => intro seen; simp [dedupeByName]
  | cons r rs ih =>
    intro seen
    simp only [dedupeByName]
    by_cases hc : r.name ∈ seen
    · rw [if_pos hc]
      exact (ih seen).cons r
    · rw [if_neg hc]
      exact (ih _).cons₂ r

/-- In the deduplicated list an unseen name keeps exactly its first
occurrence, and a seen name is dropped entirely. -/
theorem dedupeByName_filter_name (l : List Recommendation) :
    ∀ (seen : List String) (n : String),
      (dedupeByName seen l).filter (fun r => r.name == n) =
        if n ∈ seen then [] else (l.filter (fun r => r.name == n)).take 1 := by
  induction l with
  | nil =>
    intro seen n
    by_cases hn : n ∈ seen
    · simp [dedupeByName, hn]
    · simp [dedupeByName, hn]
  | cons r rs ih =>
    intro seen n
    simp only [dedupeByName]
    by_cases hc : r.name ∈ seen
    · rw [if_pos hc, ih seen n]
      by_cases hn : n ∈ seen
      · rw [if_pos hn, if_pos hn]
      · have hrn : (r.name == n) = false := by
          have hne : ¬ r.name = n := fun hh => hn (hh ▸ hc)
          simpa using hne
        rw [if_neg hn, if_neg hn]
        simp [List.filter_cons, hrn]
    · rw [if_neg hc]
      by_cases hrn : (r.name == n) = true
      · have heq : r.name = n := by simpa using hrn
        have hmem : n ∈ r.name :: seen := by
          rw [← heq]
          exact List.mem_cons_self _ _
        simp only [List.filter_cons, hrn, if_true]
        rw [ih (r.name :: seen) n, if_pos hmem]
        by_cases hn : n ∈ seen
        · exact absurd (heq ▸ hn) hc
        · rw [if_neg hn]
          simp
      · have hrnf : (r.name == n) = false := by simpa using hrn
        simp only [List.filter_cons, hrnf, if_false, Bool.false_eq_true]
        rw [ih (r.name :: seen) n]
        by_cases hn : n ∈ seen
        · rw [if_pos (List.mem_cons_of_mem _ hn), if_pos hn]
        · have hnc : ¬ n ∈ r.name :: seen := by
            intro hh
            rcases List.mem_cons.mp hh with h1 | h1
            · exact hrn (by rw [h1]; exact beq_self_eq_true _)
            · exact hn h1
          rw [if_neg hnc, if_neg hn]

/-- The final per-stage list is the first-occurrence deduplication of
the matching catalog entries for that stage. -/
theorem stageList_eq (catalog : List TechniqueDetail) (requirement : Requirement)
    (s : String) (hs : s ∈ allStages) :
    recLookup (getFilteredTechniques catalog requirement) s =
      some (dedupeByName [] (matchingEntries catalog requirement s)) := by
  have h0 : recLookup initialRecommendations s = some [] := by
    simp only [allStages, List.mem_cons, List.not_mem_nil, or_false] at hs
    rcases hs with rfl | rfl | rfl | rfl | rfl <;> rfl
  have hinit : initialRecommendations.map Prod.fst = allStages := rfl
  have hkeys := foldl_stepTech_keys requirement catalog initialRecommendations
  unfold getFilteredTechniques
  rw [ensureStages_eq_self _ ?hsome]
  case hsome =>
    intro u hu
    apply recLookup_isSome_of_mem
    rw [hkeys, hinit]
    exact hu
  rw [foldl_stepTech_lookup requirement catalog initialRecommendations s [] h0]
  simp [matchingEntries]

/-- C1: during the catalog iteration, a technique is appended to the
list of its stage exactly when all five criteria (project-type,
user-base, outcome, device-type, output-type) hold, subject to the
per-stage duplicate-name guard: when no entry of the stage list already
carries the name, the push happens iff the five criteria are true, and
when one does, the accumulator is left unchanged. -/
theorem c1_push_iff (requirement : Requirement) (recs : StageMap) (tech : TechniqueDetail)
    (lst : List Recommendation) (hlk : recLookup recs tech.stage = some lst) :
    ((∀ r ∈ lst, ¬ r.name = tech.name) →
      (stepTech requirement recs tech =
          recUpdate recs tech.stage (lst ++ [entryOf tech]) ↔
        (projectTypeMatch requirement tech = true ∧ userBaseMatch requirement tech = true ∧
          outcomeMatch requirement tech = true ∧ deviceTypeMatch requirement tech = true ∧
          outputTypeMatch requirement tech = true))) ∧
    ((∃ r ∈ lst, r.name = tech.name) → stepTech requirement recs tech = recs) := by
  constructor
  · intro hno
    have hany : (lst.any (fun r => r.name == tech.name)) = false := by
      rw [List.any_eq_false]
      intro r hr
      simpa using hno r hr
    constructor
    · intro heq
      by_cases hm : matchesCriteria requirement tech = true
      · have h5 := hm
        simp only [matchesCriteria, Bool.and_eq_true] at h5
        obtain ⟨⟨⟨⟨hp, ho⟩, hd⟩, hot⟩, hub⟩ := h5
        exact ⟨hp, hub, ho, hd, hot⟩
      · exfalso
        have hstep : stepTech requirement recs tech = recs :=
          stepTech_not_matches _ _ _ (by simpa using hm)
        rw [hstep] at heq
        have h1 : recLookup recs tech.stage = some (lst ++ [entryOf tech]) := by
          conv_lhs => rw [heq]
          exact recLookup_recUpdate_self _ _ _ (by simp [hlk])
        rw [hlk] at h1
        have h2 : lst = lst ++ [entryOf tech] := Option.some.inj h1
        have hlen := congrArg List.length h2
        simp at hlen
    · rintro ⟨hp, hub, ho, hd, hot⟩
      have hm : matchesCriteria requirement tech = true := by
        simp [matchesCriteria, hp, hub, ho, hd, hot]
      simp [stepTech, hm, hlk, hany, entryOf]
  · rintro ⟨r, hr, hname⟩
    have hany : (lst.any (fun r => r.name == tech.name)) = true := by
      rw [List.any_eq_true]
      exact ⟨r, hr, by rw [hname]; exact beq_self_eq_true _⟩
    by_cases hm : matchesCriteria requirement tech = true
    · simp [stepTech, hm, hlk, hany]
    · exact stepTech_not_matches _ _ _ (by simpa using hm)

/-- Witness for C1: with an empty Discover list, a technique passing all
five criteria is pushed onto the Discover list. -/
theorem c1_push_iff_witness :
    recLookup initialRecommendations techInterviews.stage = some [] ∧
    stepTech emptyReq initialRecommendations techInterviews =
      recUpdate initialRecommendations techInterviews.stage ([] ++ [entryOf techInterviews]) :=
  ⟨by decide,
   ((c1_push_iff emptyReq initialRecommendations techInterviews [] (by decide)).1
      (fun r hr => absurd hr (List.not_mem_nil r))).mpr
     ⟨by decide, by decide, by decide, by decide, by decide⟩⟩

/-- C2: the engine is a total function (it is a Lean `def`, so it never
fails or throws), and for every requirement and catalog the returned
record's keys are exactly the five stages, in order, each bound to a
(possibly empty) list. -/
theorem c2_totality_keys (catalog : List TechniqueDetail) (requirement : Requirement) :
    (getFilteredTechniques catalog requirement).map Prod.fst = allStages :=
  stage_keys_eq catalog requirement

/-- C5: each stage's result list is a subsequence of the matching
catalog entries in catalog order, and for any name it keeps exactly the
first matching occurrence (so a duplicated name appears once, with the
slug of the first matching entry of that name). -/
theorem c5_order_and_dedupe (catalog : List TechniqueDetail) (requirement : Requirement)
    (s : String) (n : String) (hs : s ∈ allStages) :
    ((recLookup (getFilteredTechniques catalog requirement) s).getD []).Sublist
      (matchingEntries catalog requirement s) ∧
    ((recLookup (getFilteredTechniques catalog requirement) s).getD []).filter
        (fun r => r.name == n) =
      ((matchingEntries catalog requirement s).filter (fun r => r.name == n)).take 1 := by
  rw [stageList_eq catalog requirement s hs]
  simp only [Option.getD_some]
  refine ⟨dedupeByName_sublist _ _, ?_⟩
  rw [dedupeByName_filter_name, if_neg (List.not_mem_nil n)]

/-- Witness for C5: a catalog with two same-named Define entries keeps
only the first occurrence's slug in the Define list. -/
theorem c5_order_and_dedupe_witness :
    ("Define" ∈ allStages) ∧
    (((recLookup (getFilteredTechniques catalogDup emptyReq) "Define").getD []).Sublist
        (matchingEntries catalogDup emptyReq "Define") ∧
      ((recLookup (getFilteredTechniques catalogDup emptyReq) "Define").getD []).filter
          (fun r => r.name == "Card Sort") =
        ((matchingEntries catalogDup emptyReq "Define").filter
          (fun r => r.name == "Card Sort")).take 1) :=
  ⟨by decide, c5_order_and_dedupe catalogDup emptyReq "Define" "Card Sort" (by decide)⟩

/-- C9: a technique whose `user_base` field is present but empty fails
the user-base criterion for every requirement (hence the whole guard),
and inserting it anywhere in the catalog leaves the result unchanged; by
contrast an empty technique-side set always matches under the
lenient-intersection rule. -/
theorem c9_empty_user_base (requirement : Requirement) (tech : TechniqueDetail)
    (c₁ c₂ : List TechniqueDetail) (ra : Option (List String))
    (h : tech.user_base = some []) :
    userBaseMatch requirement tech = false ∧
    matchesCriteria requirement tech = false ∧
    getFilteredTechniques (c₁ ++ tech :: c₂) requirement =
      getFilteredTechniques (c₁ ++ c₂) requirement ∧
    doArraysIntersect ra [] = true := by
  have hub : userBaseMatch requirement tech = false := by
    simp [userBaseMatch, h]
  have hmc : matchesCriteria requirement tech = false := by
    simp [matchesCriteria, hub]
  refine ⟨hub, hmc, ?_, ?_⟩
  · exact getFiltered_insert_skip _ _ _ _ (stepTech_not_matches _ _ _ hmc)
  · cases ra with
    | none => rfl
    | some l => cases l <;> simp [doArraysIntersect]

/-- Witness for C9: the sample empty-`user_base` technique is excluded
while an empty technique-side tag set still matches. -/
theorem c9_empty_user_base_witness :
    techEmptyUserBase.user_base = some [] ∧
    (userBaseMatch emptyReq techEmptyUserBase = false ∧
      matchesCriteria emptyReq techEmptyUserBase = false ∧
      getFilteredTechniques ([] ++ techEmptyUserBase :: []) emptyReq =
        getFilteredTechniques ([] ++ []) emptyReq ∧
      doArraysIntersect (some ["Qualitative"]) [] = true) :=
  ⟨rfl, c9_empty_user_base emptyReq techEmptyUserBase [] [] (some ["Qualitative"]) rfl⟩

/-- A successful `stepTechJS` iteration never changes the key set. -/
theorem stepTechJS_keys (requirement : Requirement) (recs : StageMap)
    (tech : TechniqueDetail) (recs2 : StageMap)
    (h : stepTechJS requirement recs tech = some recs2) :
    recs2.map Prod.fst = recs.map Prod.fst := by
  by_cases hm : matchesCriteria requirement tech = true
  · cases hr : jsRead recs tech.stage with
    | arr lst =>
      by_cases hd : (lst.any (fun t => t.name == tech.name)) = true
      · have hstep : stepTechJS requirement recs tech = some recs := by
          simp [stepTechJS, hm, hr, hd]
        rw [hstep] at h
        rw [← Option.some.inj h]
      · have hany : (lst.any (fun t => t.name == tech.name)) = false := by simpa using hd
        have hstep : stepTechJS requirement recs tech =
            some (recUpdate recs tech.stage (lst ++ [⟨tech.name, tech.slug⟩])) := by
          simp [stepTechJS, hm, hr, hany]
        rw [hstep] at h
        rw [← Option.some.inj h, recUpdate_keys]
    | protoTruthy =>
      have hstep : stepTechJS requirement recs tech = none := by
        simp [stepTechJS, hm, hr]
      rw [hstep] at h
      exact absurd h (by simp)
    | undef =>
      have hstep : stepTechJS requirement recs tech = some recs := by
        simp [stepTechJS, hm, hr]
      rw [hstep] at h
      rw [← Option.some.inj h]
  · have hmf : matchesCriteria requirement tech = false := by simpa using hm
    have hstep : stepTechJS requirement recs tech = some recs := by
      simp [stepTechJS, hmf]
    rw [hstep] at h
    rw [← Option.some.inj h]

/-- A successful catalog run never changes the key set. -/
theorem runCatalogJS_keys (requirement : Requirement) (catalog : List TechniqueDetail) :
    ∀ (recs m : StageMap), runCatalogJS requirement catalog recs = some m →
      m.map Prod.fst = recs.map Prod.fst := by
  induction catalog with
  | nil =>
    intro recs m h
    rw [← Option.some.inj h]
  | cons t ts ih =>
    intro recs m h
    unfold runCatalogJS at h
    cases hs : stepTechJS requirement recs t with
    | none =>
      rw [hs] at h
      exact absurd h (by simp)
    | some recs2 =>
      rw [hs] at h
      rw [ih recs2 m h, stepTechJS_keys requirement recs t recs2 hs]

/-- The catalog run splits over list append, propagating a thrown
error. -/
theorem runCatalogJS_append (requirement : Requirement) (l₁ l₂ : List TechniqueDetail) :
    ∀ recs : StageMap,
      runCatalogJS requirement (l₁ ++ l₂) recs =
        match runCatalogJS requirement l₁ recs with
        | some r => runCatalogJS requirement l₂ r
        | none => none := by
  induction l₁ with
  | nil => intro recs; rfl
  | cons t ts ih =>
    intro recs
    cases hs : stepTechJS requirement recs t with
    | none => simp only [List.cons_append, runCatalogJS, hs]
    | some r =>
      simp only [List.cons_append, runCatalogJS, hs]
      exact ih r

/-- A technique whose stage is neither an own key nor an
`Object.prototype` property name is skipped without failing. -/
theorem stepTechJS_skip (requirement : Requirement) (recs : StageMap)
    (tech : TechniqueDetail) (hlk : recLookup recs tech.stage = none)
    (h2 : ¬ tech.stage ∈ protoKeys) :
    stepTechJS requirement recs tech = some recs := by
  have hr : jsRead recs tech.stage = JsReadResult.undef := by
    unfold jsRead
    rw [hlk, if_neg h2]
  unfold stepTechJS
  rw [hr]
  split <;> rfl

/-- Counterexample to C10 as stated: a catalog entry whose stage is the
`Object.prototype` property name toString (not one of the five stages)
makes the function throw a TypeError under the prototype-chain-faithful
read — `recommendations["toString"]` is a truthy inherited function, so
`.find` is `undefined` and calling it throws — rather than being
silently excluded. -/
theorem c10_counterexample :
    (¬ techToString.stage ∈ allStages) ∧
    getFilteredTechniquesJS [techToString] emptyReq = none := by
  decide

/-- C10 amended: a catalog entry whose stage value is neither one of the
five fixed stage names nor an `Object.prototype` property name is
silently excluded: removing it from the catalog leaves the outcome
(normal or thrown) unchanged, and whenever the call returns normally the
key set is exactly the five fixed stages. -/
theorem c10_unknown_stage_silent (requirement : Requirement)
    (c₁ c₂ : List TechniqueDetail) (tech : TechniqueDetail) (m : StageMap)
    (h1 : ¬ tech.stage ∈ allStages) (h2 : ¬ tech.stage ∈ protoKeys)
    (hok : getFilteredTechniquesJS (c₁ ++ tech :: c₂) requirement = some m) :
    getFilteredTechniquesJS (c₁ ++ tech :: c₂) requirement =
      getFilteredTechniquesJS (c₁ ++ c₂) requirement ∧
    m.map Prod.fst = allStages := by
  have hinit : initialRecommendations.map Prod.fst = allStages := rfl
  have hA : getFilteredTechniquesJS (c₁ ++ tech :: c₂) requirement =
      getFilteredTechniquesJS (c₁ ++ c₂) requirement := by
    unfold getFilteredTechniquesJS
    rw [runCatalogJS_append, runCatalogJS_append]
    cases hr : runCatalogJS requirement c₁ initialRecommendations with
    | none => rfl
    | some r =>
      have hkeys : r.map Prod.fst = allStages := by
        rw [runCatalogJS_keys requirement c₁ initialRecommendations r hr, hinit]
      have hlk : recLookup r tech.stage = none := by
        apply recLookup_none_of_not_mem
        rw [hkeys]
        exact h1
      have hskip : runCatalogJS requirement (tech :: c₂) r =
          runCatalogJS requirement c₂ r := by
        simp only [runCatalogJS, stepTechJS_skip requirement r tech hlk h2]
      show (match runCatalogJS requirement (tech :: c₂) r with
            | some recs => some (ensureStages recs)
            | none => none) =
          (match runCatalogJS requirement c₂ r with
            | some recs => some (ensureStages recs)
            | none => none)
      rw [hskip]
  refine ⟨hA, ?_⟩
  unfold getFilteredTechniquesJS at hok
  cases hr : runCatalogJS requirement (c₁ ++ tech :: c₂) initialRecommendations with
  | none =>
    rw [hr] at hok
    exact absurd hok (by simp)
  | some r =>
    rw [hr] at hok
    have hm2 : ensureStages r = m := Option.some.inj hok
    have hkeys : r.map Prod.fst = allStages := by
      rw [runCatalogJS_keys requirement _ initialRecommendations r hr, hinit]
    have hens : ensureStages r = r :=
      ensureStages_eq_self r
        (fun s hs => recLookup_isSome_of_mem _ _ (by rw [hkeys]; exact hs))
    rw [← hm2, hens, hkeys]

/-- Witness for the amended C10: a technique with stage Ideate (neither
a stage nor a prototype property) contributes nothing and the call
returns normally with the five stage keys. -/
theorem c10_unknown_stage_silent_witness :
    (¬ techUnknownStage.stage ∈ allStages) ∧ (¬ techUnknownStage.stage ∈ protoKeys) ∧
    (getFilteredTechniquesJS ([techInterviews] ++ techUnknownStage :: []) emptyReq =
        getFilteredTechniquesJS ([techInterviews] ++ []) emptyReq ∧
      resultSample.map Prod.fst = allStages) :=
  ⟨by decide, by decide,
   c10_unknown_stage_silent emptyReq [techInterviews] [] techUnknownStage resultSample
     (by decide) (by decide) (by decide)⟩

/-- With every selection empty or unset, a technique passes all five
criteria provided its `user_base`, if present, admits new users (the
derived context when `existing_users` is unset). -/
theorem matches_of_permissive (requirement : Requirement) (tech : TechniqueDetail)
    (hpt : requirement.project_type = none)
    (heu : requirement.existing_users = none)
    (hoc : requirement.outcome = none ∨ requirement.outcome = some [])
    (hdv : requirement.device_type = none ∨ requirement.device_type = some [])
    (hot : requirement.output_type = none ∨ requirement.output_type = some [])
    (huser : tech.user_base = none ∨ "new" ∈ tech.user_base.getD []) :
    matchesCriteria requirement tech = true := by
  have h1 : projectTypeMatch requirement tech = true := by
    simp [projectTypeMatch, strTruthy, hpt]
  have h2 : outcomeMatch requirement tech = true := by
    rcases hoc with h | h <;> simp [outcomeMatch, doArraysIntersect, h]
  have h3 : deviceTypeMatch requirement tech = true := by
    rcases hdv with h | h <;> simp [deviceTypeMatch, doArraysIntersect, h]
  have h4 : outputTypeMatch requirement tech = true := by
    rcases hot with h | h <;> simp [outputTypeMatch, doArraysIntersect, h]
  have h5 : userBaseMatch requirement tech = true := by
    rcases huser with h | h
    · simp [userBaseMatch, h]
    · cases hub : tech.user_base with
      | none => simp [userBaseMatch, hub]
      | some ub =>
        rw [hub] at h
        simp only [Option.getD_some] at h
        simp only [userBaseMatch, hub]
        have hctx : userContext requirement = "new" := by
          simp [userContext, boolTruthy, heu]
        rw [hctx]
        simpa using h
  simp [matchesCriteria, h1, h2, h3, h4, h5]

/-- In a catalog with pairwise distinct names, filtering for a member's
name (conjoined with any predicate that member satisfies) yields exactly
that member. -/
theorem filter_name_eq_single (catalog : List TechniqueDetail) (tech : TechniqueDetail)
    (p : TechniqueDetail → Bool) (htech : tech ∈ catalog) (hp : p tech = true)
    (hnames : (catalog.map (fun t => t.name)).Nodup) :
    catalog.filter (fun t => (t.name == tech.name) && p t) = [tech] := by
  induction catalog with
  | nil => exact absurd htech (List.not_mem_nil _)
  | cons a rest ih =>
    have hnd := List.nodup_cons.mp hnames
    rcases List.mem_cons.mp htech with rfl | hmem
    · have h1 : ((tech.name == tech.name) && p tech) = true := by
        rw [beq_self_eq_true]
        simpa using hp
      have hrest : rest.filter (fun t => (t.name == tech.name) && p t) = [] := by
        rw [List.filter_eq_nil_iff]
        intro r hr
        have hne : ¬ r.name = tech.name := by
          intro hh
          exact hnd.1 (List.mem_map.mpr ⟨r, hr, hh⟩)
        simp [hne]
      simp [List.filter_cons, h1, hrest, hp]
    · have hanem : ¬ a.name = tech.name := by
        intro hh
        exact hnd.1 (List.mem_map.mpr ⟨tech, hmem, hh.symm⟩)
      have hcond : ((a.name == tech.name) && p a) = false := by
        have hbe : (a.name == tech.name) = false := by simpa using hanem
        simp [hbe]
      rw [List.filter_cons, if_neg (by simp [hcond])]
      exact ih hmem hnd.2

/-- Counterexample to C4 as stated: with every selection empty and both
scalar fields unset, a catalog technique restricted to existing users
(`user_base = ["existing"]`) does not appear in its stage's list at all
(the derived user context is new, so the user-base criterion fails). -/
theorem c4_counterexample :
    emptyReq.project_type = none ∧ emptyReq.existing_users = none ∧
    emptyReq.outcome = some [] ∧ emptyReq.device_type = some [] ∧
    emptyReq.output_type = some [] ∧
    techExistingOnly ∈ [techExistingOnly] ∧
    recLookup (getFilteredTechniques [techExistingOnly] emptyReq)
      techExistingOnly.stage = some [] := by
  decide

/-- C4 amended: with every selection empty or unset, every catalog
technique whose stage is one of the five stages and whose `user_base`,
if present, contains new appears in its stage's list exactly once
(assuming catalog names are pairwise distinct, as the catalog contract
requires): the stage list filtered to its name is exactly its
`{name, slug}` entry. -/
theorem c4_permissive (catalog : List TechniqueDetail) (requirement : Requirement)
    (tech : TechniqueDetail)
    (hpt : requirement.project_type = none)
    (heu : requirement.existing_users = none)
    (hoc : requirement.outcome = none ∨ requirement.outcome = some [])
    (hdv : requirement.device_type = none ∨ requirement.device_type = some [])
    (hot : requirement.output_type = none ∨ requirement.output_type = some [])
    (htech : tech ∈ catalog)
    (hstage : tech.stage ∈ allStages)
    (hnames : (catalog.map (fun t => t.name)).Nodup)
    (huser : tech.user_base = none ∨ "new" ∈ tech.user_base.getD []) :
    ((recLookup (getFilteredTechniques catalog requirement) tech.stage).getD []).filter
      (fun r => r.name == tech.name) = [entryOf tech] := by
  have hp : (fun t => matchesCriteria requirement t && t.stage == tech.stage) tech = true := by
    have hm := matches_of_permissive requirement tech hpt heu hoc hdv hot huser
    simp [hm]
  rw [stageList_eq catalog requirement tech.stage hstage]
  simp only [Option.getD_some]
  rw [dedupeByName_filter_name, if_neg (List.not_mem_nil _)]
  unfold matchingEntries
  rw [List.filter_map, List.filter_filter]
  show (List.map entryOf (List.filter
      (fun x => (x.name == tech.name) && (matchesCriteria requirement x && x.stage == tech.stage))
      catalog)).take 1 = [entryOf tech]
  rw [filter_name_eq_single catalog tech
    (fun t => matchesCriteria requirement t && t.stage == tech.stage) htech hp hnames]
  rfl

/-- Witness for the amended C4: a one-technique catalog under the empty
requirement lists that technique exactly once. -/
theorem c4_permissive_witness :
    (techInterviews ∈ [techInterviews]) ∧
    ((recLookup (getFilteredTechniques [techInterviews] emptyReq)
        techInterviews.stage).getD []).filter
      (fun r => r.name == techInterviews.name) = [entryOf techInterviews] :=
  ⟨by decide,
   c4_permissive [techInterviews] emptyReq techInterviews rfl rfl (Or.inr rfl) (Or.inr rfl)
     (Or.inr rfl) (by decide) (by decide) (by decide) (by decide)⟩

end Profolio
